import Mathlib

/-!
# Verification of the keyword-expansion pipeline (`scripts/expand_keywords.py`)

Shallow embedding of the expansion pipeline: the response-parsing portion of
`expand_keywords` (whitespace strip, markdown fence removal, strict JSON-array
parse with a quoted-substring fallback, normalization and length filtering),
and `deduplicate` (order-preserving, first-occurrence-wins deduplication under
lowercase+trim equivalence), as used by `main` to merge base keyword lists
with expanded ones.

Python strings are embedded as `List Char`.  `str.strip()`, `str.lower()`,
the two `re.sub` fence removals, `re.findall(r'"([^"]+)"', ...)` and
`json.loads` are modelled character-by-character on the ASCII fragment the
pipeline operates on (whitespace is the ASCII whitespace set, lowercasing is
the ASCII A–Z → a–z map, which agrees with Python on every string the script
handles).
-/

/-- ASCII whitespace, the characters stripped by Python's `str.strip()` and
matched by the regex class `\s` (space, tab, newline, carriage return,
vertical tab, form feed). -/
def isPyWs (c : Char) : Bool := decide (c.toNat = 32 ∨ c.toNat = 9 ∨ c.toNat = 10 ∨ c.toNat = 13 ∨ c.toNat = 11 ∨ c.toNat = 12)

/-- Model of Python `str.strip()`: drop leading and trailing whitespace. -/
def pyStrip (s : List Char) : List Char :=
  (((s.dropWhile isPyWs).reverse).dropWhile isPyWs).reverse

/-- Model of Python `str.lower()` (ASCII case map, `Char.toLower`). -/
def pyLower (s : List Char) : List Char := s.map Char.toLower

/-- The normalization applied throughout the script: `kw.lower().strip()`. -/
def normKw (s : List Char) : List Char := pyStrip (pyLower s)

/-- `deduplicate`'s loop: `seen` is the set of normalized keywords already
retained; an entry is kept iff its normalized form is nonempty (`if kw_lower`)
and not yet seen (`kw_lower not in seen`). -/
def dedupGo (seen : List (List Char)) : List (List Char) → List (List Char)
  | [] => []
  | kw :: rest =>
    if normKw kw ≠ [] ∧ normKw kw ∉ seen then
      normKw kw :: dedupGo (normKw kw :: seen) rest
    else
      dedupGo seen rest

/-- `deduplicate(keywords)`: remove duplicates (under lowercase+trim
equivalence) while preserving order, rewriting every kept entry to its
normalized form. -/
def deduplicate (keywords : List (List Char)) : List (List Char) :=
  dedupGo [] keywords

/-- The merge performed in `main`: `deduplicate(base + expanded)`. -/
def merge (base expanded : List (List Char)) : List (List Char) :=
  deduplicate (base ++ expanded)

/-- The `seen` set as it stands after `dedupGo` has processed a chunk of
input (used to split `dedupGo` across an append). -/
def seenAfter (seen : List (List Char)) : List (List Char) → List (List Char)
  | [] => seen
  | kw :: rest =>
    if normKw kw ≠ [] ∧ normKw kw ∉ seen then
      seenAfter (normKw kw :: seen) rest
    else
      seenAfter seen rest

/-- The `daw_keywords` base list from `main`. -/
def daw_keywords : List (List Char) :=
  (["track", "clip", "fx", "volume", "pan", "mute", "solo",
    "reaper", "daw", "create", "delete", "move", "select",
    "color", "rename", "add", "remove", "enable", "disable",
    "instrument", "plugin", "effect", "compressor", "reverb", "eq",
    "mix", "master", "bus", "send", "return"]).map String.toList

/-- The `arranger_keywords` base list from `main`. -/
def arranger_keywords : List (List Char) :=
  (["chord", "progression", "melody", "note", "notes",
    "I", "VI", "IV", "V", "ii", "iii", "vii",
    "roman", "scale", "harmony", "sequence", "pattern",
    "major", "minor", "diminished", "augmented",
    "triad", "seventh", "ninth",
    "arpeggio", "bassline", "riff", "hook", "groove", "lick",
    "phrase", "motif", "ostinato", "fill", "break",
    "C", "D", "E", "F", "G", "A", "B",
    "sharp", "flat", "natural",
    "pentatonic", "dorian", "mixolydian",
    "sus2", "sus4", "add9"]).map String.toList

-- ### Character-level lemmas

theorem toNat_ofNatAux (n : Nat) (h : n.isValidChar) : (Char.ofNatAux n h).toNat = n := by
  simp [Char.ofNatAux, Char.toNat, UInt32.toNat, BitVec.toNat_ofNatLt]

theorem toNat_ofNat_valid (n : Nat) (h : n.isValidChar) : (Char.ofNat n).toNat = n := by
  unfold Char.ofNat
  rw [dif_pos h]
  exact toNat_ofNatAux n h

theorem toLower_idem (c : Char) : c.toLower.toLower = c.toLower := by
  unfold Char.toLower
  by_cases h : c.toNat ≥ 65 ∧ c.toNat ≤ 90
  · rw [if_pos h]
    have hv : (c.toNat + 32).isValidChar := Or.inl (by omega)
    have ht : (Char.ofNat (c.toNat + 32)).toNat = c.toNat + 32 := toNat_ofNat_valid _ hv
    rw [if_neg]
    rw [ht]
    omega
  · rw [if_neg h, if_neg h]

theorem isPyWs_toLower (c : Char) : isPyWs c.toLower = isPyWs c := by
  unfold Char.toLower
  by_cases h : c.toNat ≥ 65 ∧ c.toNat ≤ 90
  · rw [if_pos h]
    have hv : (c.toNat + 32).isValidChar := Or.inl (by omega)
    have ht : (Char.ofNat (c.toNat + 32)).toNat = c.toNat + 32 := toNat_ofNat_valid _ hv
    simp only [isPyWs, ht]
    have h1 : ¬ (c.toNat + 32 = 32 ∨ c.toNat + 32 = 9 ∨ c.toNat + 32 = 10 ∨ c.toNat + 32 = 13 ∨ c.toNat + 32 = 11 ∨ c.toNat + 32 = 12) := by omega
    have h2 : ¬ (c.toNat = 32 ∨ c.toNat = 9 ∨ c.toNat = 10 ∨ c.toNat = 13 ∨ c.toNat = 11 ∨ c.toNat = 12) := by omega
    rw [decide_eq_false h1, decide_eq_false h2]
  · rw [if_neg h]

-- ### Normalization lemmas

theorem dropWhile_idem {α : Type} (p : α → Bool) (l : List α) :
    (l.dropWhile p).dropWhile p = l.dropWhile p := by
  induction l with
  | nil => rfl
  | cons a l ih =>
    by_cases h : p a
    · simp [List.dropWhile_cons, h, ih]
    · simp [List.dropWhile_cons, h]

theorem dropWhile_append_singleton {α : Type} {p : α → Bool} {c : α}
    (hc : p c = false) (u : List α) :
    List.dropWhile p (u ++ [c]) = List.dropWhile p u ++ [c] := by
  induction u with
  | nil => simp [List.dropWhile_cons, hc]
  | cons a u ih =>
    by_cases h : p a
    · simp [List.dropWhile_cons, h, ih]
    · simp [List.dropWhile_cons, h]

theorem head_dropWhile_false {α : Type} {p : α → Bool} {l : List α} {a : α} {t : List α}
    (h : l.dropWhile p = a :: t) : p a = false := by
  induction l with
  | nil => simp at h
  | cons b l ih =>
    rw [List.dropWhile_cons] at h
    by_cases hb : p b
    · rw [if_pos hb] at h
      exact ih h
    · rw [if_neg hb] at h
      cases h
      simpa using hb

theorem pyStrip_front_dropped (l : List Char) :
    (pyStrip l).dropWhile isPyWs = pyStrip l := by
  unfold pyStrip
  cases h : l.dropWhile isPyWs with
  | nil => simp
  | cons c t =>
    have hc : isPyWs c = false := head_dropWhile_false h
    have : (c :: t).reverse = t.reverse ++ [c] := by simp
    rw [this, dropWhile_append_singleton hc, List.reverse_append]
    simp [List.dropWhile_cons, hc]

theorem pyStrip_idem (l : List Char) : pyStrip (pyStrip l) = pyStrip l := by
  conv_lhs => rw [pyStrip, pyStrip_front_dropped l]
  rw [pyStrip]
  rw [List.reverse_reverse, dropWhile_idem]

theorem pyLower_pyStrip (l : List Char) : pyStrip (pyLower l) = pyLower (pyStrip l) := by
  have hfe : (isPyWs ∘ Char.toLower) = isPyWs := funext isPyWs_toLower
  unfold pyStrip pyLower
  rw [List.dropWhile_map, hfe, ← List.map_reverse, List.dropWhile_map, hfe, ← List.map_reverse]

theorem pyLower_idem (l : List Char) : pyLower (pyLower l) = pyLower l := by
  have hfe : (Char.toLower ∘ Char.toLower) = Char.toLower := funext toLower_idem
  unfold pyLower
  rw [List.map_map, hfe]

theorem normKw_idem (s : List Char) : normKw (normKw s) = normKw s := by
  unfold normKw
  rw [← pyLower_pyStrip, pyLower_idem, pyStrip_idem]

-- ### Deduplication lemmas

theorem mem_dedupGo_ne_nil (l : List (List Char)) :
    ∀ (seen : List (List Char)) (k : List Char), k ∈ dedupGo seen l → k ≠ [] := by
  induction l with
  | nil => intro seen k hk; simp [dedupGo] at hk
  | cons kw rest ih =>
    intro seen k hk
    rw [dedupGo] at hk
    by_cases hg : normKw kw ≠ [] ∧ normKw kw ∉ seen
    · rw [if_pos hg] at hk
      rcases List.mem_cons.mp hk with h | h
      · rw [h]; exact hg.1
      · exact ih _ k h
    · rw [if_neg hg] at hk
      exact ih _ k hk

theorem mem_dedupGo_exists (l : List (List Char)) :
    ∀ (seen : List (List Char)) (k : List Char), k ∈ dedupGo seen l → ∃ x ∈ l, normKw x = k := by
  induction l with
  | nil => intro seen k hk; simp [dedupGo] at hk
  | cons kw rest ih =>
    intro seen k hk
    rw [dedupGo] at hk
    by_cases hg : normKw kw ≠ [] ∧ normKw kw ∉ seen
    · rw [if_pos hg] at hk
      rcases List.mem_cons.mp hk with h | h
      · exact ⟨kw, List.mem_cons_self kw rest, h.symm⟩
      · obtain ⟨x, hx, hn⟩ := ih _ k h
        exact ⟨x, List.mem_cons_of_mem kw hx, hn⟩
    · rw [if_neg hg] at hk
      obtain ⟨x, hx, hn⟩ := ih _ k hk
      exact ⟨x, List.mem_cons_of_mem kw hx, hn⟩

theorem normKw_of_mem_dedupGo {l seen : List (List Char)} {k : List Char}
    (hk : k ∈ dedupGo seen l) : normKw k = k := by
  obtain ⟨x, _, hn⟩ := mem_dedupGo_exists l seen k hk
  rw [← hn, normKw_idem]

theorem mem_dedupGo_not_seen (l : List (List Char)) :
    ∀ (seen : List (List Char)) (k : List Char), k ∈ dedupGo seen l → k ∉ seen := by
  induction l with
  | nil => intro seen k hk; simp [dedupGo] at hk
  | cons kw rest ih =>
    intro seen k hk
    rw [dedupGo] at hk
    by_cases hg : normKw kw ≠ [] ∧ normKw kw ∉ seen
    · rw [if_pos hg] at hk
      rcases List.mem_cons.mp hk with h | h
      · rw [h]; exact hg.2
      · have := ih _ k h
        intro hks
        exact this (List.mem_cons_of_mem _ hks)
    · rw [if_neg hg] at hk
      exact ih _ k hk

theorem dedupGo_nodup (l : List (List Char)) :
    ∀ (seen : List (List Char)), (dedupGo seen l).Nodup := by
  induction l with
  | nil => intro seen; simp [dedupGo]
  | cons kw rest ih =>
    intro seen
    rw [dedupGo]
    by_cases hg : normKw kw ≠ [] ∧ normKw kw ∉ seen
    · rw [if_pos hg]
      refine List.nodup_cons.mpr ⟨?_, ih _⟩
      intro hmem
      exact mem_dedupGo_not_seen rest _ _ hmem (List.mem_cons_self _ _)
    · rw [if_neg hg]
      exact ih _

theorem dedupGo_congr (l : List (List Char)) :
    ∀ (s t : List (List Char)), (∀ k, k ∈ s ↔ k ∈ t) → dedupGo s l = dedupGo t l := by
  induction l with
  | nil => intro s t _; rfl
  | cons kw rest ih =>
    intro s t hst
    rw [dedupGo, dedupGo]
    by_cases hg : normKw kw ≠ [] ∧ normKw kw ∉ s
    · have hg' : normKw kw ≠ [] ∧ normKw kw ∉ t := ⟨hg.1, fun h => hg.2 ((hst _).mpr h)⟩
      rw [if_pos hg, if_pos hg']
      have : ∀ k, k ∈ normKw kw :: s ↔ k ∈ normKw kw :: t := by
        intro k
        simp only [List.mem_cons]
        exact or_congr Iff.rfl (hst k)
      rw [ih _ _ this]
    · have hg' : ¬ (normKw kw ≠ [] ∧ normKw kw ∉ t) := by
        intro hc
        exact hg ⟨hc.1, fun h => hc.2 ((hst _).mp h)⟩
      rw [if_neg hg, if_neg hg']
      exact ih _ _ hst

theorem dedupGo_filter (l : List (List Char)) :
    ∀ (s : List (List Char)),
      dedupGo s l = (dedupGo [] l).filter (fun k => decide (k ∉ s)) := by
  induction l with
  | nil => intro s; rfl
  | cons kw rest ih =>
    intro s
    rw [dedupGo, dedupGo]
    by_cases ha : normKw kw = []
    · have h1 : ¬ (normKw kw ≠ [] ∧ normKw kw ∉ s) := fun hc => hc.1 ha
      have h2 : ¬ (normKw kw ≠ [] ∧ normKw kw ∉ ([] : List (List Char))) := fun hc => hc.1 ha
      rw [if_neg h1, if_neg h2]
      exact ih s
    · have h2 : normKw kw ≠ [] ∧ normKw kw ∉ ([] : List (List Char)) :=
        ⟨ha, List.not_mem_nil _⟩
      rw [if_pos h2]
      by_cases hs : normKw kw ∈ s
      · have h1 : ¬ (normKw kw ≠ [] ∧ normKw kw ∉ s) := fun hc => hc.2 hs
        rw [if_neg h1, ih s]
        rw [List.filter_cons]
        have : (decide (normKw kw ∉ s)) = false := by simp [hs]
        rw [if_neg (by simp [hs])]
        rw [ih [normKw kw], List.filter_filter]
        apply List.filter_congr
        intro x hx
        by_cases hxa : x = normKw kw
        · simp [hxa, hs]
        · simp [hxa]
      · have h1 : normKw kw ≠ [] ∧ normKw kw ∉ s := ⟨ha, hs⟩
        rw [if_pos h1]
        rw [List.filter_cons]
        rw [if_pos (by simp [hs])]
        rw [ih (normKw kw :: s), ih [normKw kw], List.filter_filter]
        congr 1
        apply List.filter_congr
        intro x hx
        by_cases hxa : x = normKw kw
        · simp [hxa]
        · simp [hxa, List.mem_cons]

theorem dedupGo_append (xs : List (List Char)) :
    ∀ (ys seen : List (List Char)),
      dedupGo seen (xs ++ ys) = dedupGo seen xs ++ dedupGo (seenAfter seen xs) ys := by
  induction xs with
  | nil => intro ys seen; rfl
  | cons kw rest ih =>
    intro ys seen
    rw [List.cons_append, dedupGo, dedupGo, seenAfter]
    by_cases hg : normKw kw ≠ [] ∧ normKw kw ∉ seen
    · rw [if_pos hg, if_pos hg, if_pos hg]
      rw [ih ys (normKw kw :: seen)]
      rfl
    · rw [if_neg hg, if_neg hg, if_neg hg]
      exact ih ys seen

theorem mem_seenAfter (xs : List (List Char)) :
    ∀ (seen : List (List Char)) (k : List Char),
      k ∈ seenAfter seen xs ↔ k ∈ seen ∨ (k ≠ [] ∧ k ∈ xs.map normKw) := by
  induction xs with
  | nil => intro seen k; simp [seenAfter]
  | cons kw rest ih =>
    intro seen k
    rw [seenAfter]
    by_cases hg : normKw kw ≠ [] ∧ normKw kw ∉ seen
    · rw [if_pos hg, ih]
      simp only [List.mem_cons, List.map_cons]
      constructor
      · rintro ((h | h) | ⟨hne, h⟩)
        · exact Or.inr ⟨h ▸ hg.1, Or.inl h⟩
        · exact Or.inl h
        · exact Or.inr ⟨hne, Or.inr h⟩
      · rintro (h | ⟨hne, (h | h)⟩)
        · exact Or.inl (Or.inr h)
        · exact Or.inl (Or.inl h)
        · exact Or.inr ⟨hne, h⟩
    · rw [if_neg hg, ih]
      simp only [List.mem_cons, List.map_cons]
      constructor
      · rintro (h | ⟨hne, h⟩)
        · exact Or.inl h
        · exact Or.inr ⟨hne, Or.inr h⟩
      · rintro (h | ⟨hne, (h | h)⟩)
        · exact Or.inl h
        · rcases not_and_or.mp hg with hc | hc
          · exact absurd (h.trans (not_not.mp hc)) hne
          · exact Or.inl (by rw [h]; exact not_not.mp hc)
        · exact Or.inr ⟨hne, h⟩

theorem mem_dedupGo_of_mem (l : List (List Char)) :
    ∀ (seen : List (List Char)) (x : List Char), x ∈ l → normKw x ≠ [] →
      normKw x ∈ seen ∨ normKw x ∈ dedupGo seen l := by
  induction l with
  | nil => intro seen x hx; simp at hx
  | cons kw rest ih =>
    intro seen x hx hne
    rw [dedupGo]
    rcases List.mem_cons.mp hx with h | h
    · subst h
      by_cases hs : normKw x ∈ seen
      · exact Or.inl hs
      · rw [if_pos ⟨hne, hs⟩]
        exact Or.inr (List.mem_cons_self _ _)
    · by_cases hg : normKw kw ≠ [] ∧ normKw kw ∉ seen
      · rw [if_pos hg]
        rcases ih (normKw kw :: seen) x h hne with hmem | hmem
        · rcases List.mem_cons.mp hmem with he | he
          · exact Or.inr (he ▸ List.mem_cons_self _ _)
          · exact Or.inl he
        · exact Or.inr (List.mem_cons_of_mem _ hmem)
      · rw [if_neg hg]
        exact ih seen x h hne

/-- Structural characterization of `merge`: the deduplicated base list comes
first, followed by the deduplicated expanded entries whose normalized form
does not already occur (normalized) in the base list. -/
theorem merge_eq_base_append_new (B E : List (List Char)) :
    merge B E = deduplicate B ++
      (deduplicate E).filter (fun k => decide (k ∉ B.map normKw)) := by
  unfold merge deduplicate
  rw [dedupGo_append, dedupGo_filter E (seenAfter [] B)]
  congr 1
  apply List.filter_congr
  intro x hx
  have hne : x ≠ [] := mem_dedupGo_ne_nil E [] x hx
  rw [decide_eq_decide]
  rw [mem_seenAfter]
  simp only [List.not_mem_nil, false_or]
  constructor
  · intro h hc
    exact h ⟨hne, hc⟩
  · intro h hc
    exact h hc.2

-- ### Markdown fence removal (the two `re.sub` calls)

/-- The literal part of the first fence pattern. -/
def fenceJson : List Char := "```json".toList

/-- The literal part of the second fence pattern. -/
def fenceBare : List Char := "```".toList

/-- Model of `re.sub(lit + '\s*', '', s)` for a nonempty literal `lit`:
scan left to right; at each position, if the literal matches, delete it
together with the following run of whitespace and continue after the match;
otherwise keep the character.  The fuel argument is initialized to more than
the input length, which a nonempty literal can never exhaust (every step
consumes at least one character). -/
def reSubLitWs (pat : List Char) : Nat → List Char → List Char
  | _, [] => []
  | 0, s => s
  | fuel + 1, c :: rest =>
    if pat.isPrefixOf (c :: rest) then
      reSubLitWs pat fuel (((c :: rest).drop pat.length).dropWhile isPyWs)
    else
      c :: reSubLitWs pat fuel rest

/-- The preprocessing in `expand_keywords`: `content.strip()`, removal of
markdown code fences by the two `re.sub` calls, then `content.strip()`
again. -/
def preprocess (payload : List Char) : List Char :=
  pyStrip
    (reSubLitWs fenceBare ((reSubLitWs fenceJson ((pyStrip payload).length + 1) (pyStrip payload)).length + 1)
      (reSubLitWs fenceJson ((pyStrip payload).length + 1) (pyStrip payload)))

-- ### Model of `json.loads`

/-- JSON values as decoded by Python's `json.loads` (number lexemes are kept
verbatim; Python's `NaN`/`Infinity`/`-Infinity` extensions are `num` lexemes
too). -/
inductive JVal : Type where
  | null : JVal
  | boolean : Bool → JVal
  | num : List Char → JVal
  | str : List Char → JVal
  | arr : List JVal → JVal
  | obj : List (List Char × JVal) → JVal

/-- Whether a decoded value is a JSON array (a Python `list`). -/
def JVal.isArr : JVal → Bool
  | JVal.arr _ => true
  | _ => false

/-- JSON inter-token whitespace (space, tab, newline, carriage return). -/
def isJWs (c : Char) : Bool := decide (c = ' ' ∨ c = '\t' ∨ c = '\n' ∨ c = '\r')

/-- Skip JSON whitespace. -/
def skipJWs (s : List Char) : List Char := s.dropWhile isJWs

/-- Hexadecimal digit value. -/
def hexVal (c : Char) : Option Nat :=
  if c.isDigit then some (c.toNat - 48)
  else if 97 ≤ c.toNat ∧ c.toNat ≤ 102 then some (c.toNat - 87)
  else if 65 ≤ c.toNat ∧ c.toNat ≤ 70 then some (c.toNat - 55)
  else none

/-- Decode a JSON string body (the characters after the opening quote):
returns the decoded text and the input after the closing quote.  Escapes and
the strict rejection of raw control characters follow `json.loads`; a
`\uXXXX` high surrogate followed by a `\uXXXX` low surrogate is combined.
The fuel argument is initialized to more than the input length, which can
never be exhausted (every step consumes at least one character). -/
def parseJStrGo : Nat → List Char → Option (List Char × List Char)
  | _, [] => none
  | 0, _ => none
  | fuel + 1, c :: rest =>
    if c = '"' then some ([], rest)
    else if c = '\\' then
      match rest with
      | [] => none
      | e :: rest2 =>
        if e = '"' then (parseJStrGo fuel rest2).map (fun p => ('"' :: p.1, p.2))
        else if e = '\\' then (parseJStrGo fuel rest2).map (fun p => ('\\' :: p.1, p.2))
        else if e = '/' then (parseJStrGo fuel rest2).map (fun p => ('/' :: p.1, p.2))
        else if e = 'b' then (parseJStrGo fuel rest2).map (fun p => ('\x08' :: p.1, p.2))
        else if e = 'f' then (parseJStrGo fuel rest2).map (fun p => ('\x0c' :: p.1, p.2))
        else if e = 'n' then (parseJStrGo fuel rest2).map (fun p => ('\n' :: p.1, p.2))
        else if e = 'r' then (parseJStrGo fuel rest2).map (fun p => ('\x0d' :: p.1, p.2))
        else if e = 't' then (parseJStrGo fuel rest2).map (fun p => ('\t' :: p.1, p.2))
        else if e = 'u' then
          match rest2 with
          | a :: b :: c2 :: d :: bs :: u2 :: a2 :: b2 :: c3 :: d2 :: rest12 =>
            match hexVal a, hexVal b, hexVal c2, hexVal d with
            | some ha, some hb, some hc, some hd =>
              let code := ((ha * 16 + hb) * 16 + hc) * 16 + hd
              if (0xD800 ≤ code ∧ code ≤ 0xDBFF) ∧ bs = '\\' ∧ u2 = 'u' then
                match hexVal a2, hexVal b2, hexVal c3, hexVal d2 with
                | some e1, some e2, some e3, some e4 =>
                  let code2 := ((e1 * 16 + e2) * 16 + e3) * 16 + e4
                  if 0xDC00 ≤ code2 ∧ code2 ≤ 0xDFFF then
                    (parseJStrGo fuel rest12).map (fun p =>
                      (Char.ofNat (0x10000 + (code - 0xD800) * 0x400 + (code2 - 0xDC00)) :: p.1, p.2))
                  else
                    (parseJStrGo fuel (bs :: u2 :: a2 :: b2 :: c3 :: d2 :: rest12)).map
                      (fun p => (Char.ofNat code :: p.1, p.2))
                | _, _, _, _ =>
                  (parseJStrGo fuel (bs :: u2 :: a2 :: b2 :: c3 :: d2 :: rest12)).map
                    (fun p => (Char.ofNat code :: p.1, p.2))
              else
                (parseJStrGo fuel (bs :: u2 :: a2 :: b2 :: c3 :: d2 :: rest12)).map
                  (fun p => (Char.ofNat code :: p.1, p.2))
            | _, _, _, _ => none
          | a :: b :: c2 :: d :: rest6 =>
            match hexVal a, hexVal b, hexVal c2, hexVal d with
            | some ha, some hb, some hc, some hd =>
              (parseJStrGo fuel rest6).map
                (fun p => (Char.ofNat (((ha * 16 + hb) * 16 + hc) * 16 + hd) :: p.1, p.2))
            | _, _, _, _ => none
          | _ => none
        else none
    else if c.toNat < 32 then none
    else (parseJStrGo fuel rest).map (fun p => (c :: p.1, p.2))

/-- The optional fraction part of a JSON number (consumed only when a dot is
followed by at least one digit, as in the `NUMBER_RE` regex). -/
def parseJFrac (s : List Char) : List Char × List Char :=
  match s with
  | '.' :: t =>
    match t.takeWhile Char.isDigit with
    | [] => ([], s)
    | ds => ('.' :: ds, t.drop ds.length)
  | _ => ([], s)

/-- The optional exponent part of a JSON number. -/
def parseJExp (s : List Char) : List Char × List Char :=
  match s with
  | e :: t =>
    if e = 'e' ∨ e = 'E' then
      match t with
      | sgn :: t2 =>
        if sgn = '+' ∨ sgn = '-' then
          match t2.takeWhile Char.isDigit with
          | [] => ([], s)
          | ds => (e :: sgn :: ds, t2.drop ds.length)
        else
          match t.takeWhile Char.isDigit with
          | [] => ([], s)
          | ds => (e :: ds, t.drop ds.length)
      | [] => ([], s)
    else ([], s)
  | [] => ([], s)

/-- The unsigned part of a JSON number: `0` or a nonzero-led digit run,
then optional fraction and exponent. -/
def parseJNumBody (s : List Char) : Option (List Char × List Char) :=
  match s with
  | c :: t =>
    if c = '0' then
      match parseJFrac t with
      | (frac, s2) =>
        match parseJExp s2 with
        | (ex, s3) => some (c :: (frac ++ ex), s3)
    else if c.isDigit then
      match t.takeWhile Char.isDigit with
      | ds =>
        match parseJFrac (t.drop ds.length) with
        | (frac, s2) =>
          match parseJExp s2 with
          | (ex, s3) => some (c :: (ds ++ frac ++ ex), s3)
    else none
  | [] => none

/-- Match a JSON number at the head of the input (Python's `NUMBER_RE`):
at most one leading minus, then the unsigned body. -/
def parseJNum (s : List Char) : Option (List Char × List Char) :=
  match s with
  | '-' :: s1 =>
    match parseJNumBody s1 with
    | some (lex, rest) => some ('-' :: lex, rest)
    | none => none
  | _ => parseJNumBody s

mutual

/-- Parse one JSON value at the head of the input (fuel-bounded recursive
descent; the fuel used by `jsonLoads` suffices for every input `json.loads`
accepts, so exhaustion only turns one failure mode into another). -/
def parseJVal : Nat → List Char → Option (JVal × List Char)
  | 0, _ => none
  | _ + 1, [] => none
  | fuel + 1, c :: rest =>
    if c = '"' then
      match parseJStrGo (rest.length + 1) rest with
      | some (d, r) => some (JVal.str d, r)
      | none => none
    else if c = '[' then
      match skipJWs rest with
      | ']' :: r => some (JVal.arr [], r)
      | s1 =>
        match parseJArrItems fuel s1 with
        | some (items, r) => some (JVal.arr items, r)
        | none => none
    else if c = '{' then
      match skipJWs rest with
      | '}' :: r => some (JVal.obj [], r)
      | s1 =>
        match parseJObjItems fuel s1 with
        | some (fields, r) => some (JVal.obj fields, r)
        | none => none
    else if ("null".toList).isPrefixOf (c :: rest) then
      some (JVal.null, (c :: rest).drop 4)
    else if ("true".toList).isPrefixOf (c :: rest) then
      some (JVal.boolean true, (c :: rest).drop 4)
    else if ("false".toList).isPrefixOf (c :: rest) then
      some (JVal.boolean false, (c :: rest).drop 5)
    else
      match parseJNum (c :: rest) with
      | some (lex, r) => some (JVal.num lex, r)
      | none =>
        if ("NaN".toList).isPrefixOf (c :: rest) then
          some (JVal.num ("NaN".toList), (c :: rest).drop 3)
        else if ("Infinity".toList).isPrefixOf (c :: rest) then
          some (JVal.num ("Infinity".toList), (c :: rest).drop 8)
        else if ("-Infinity".toList).isPrefixOf (c :: rest) then
          some (JVal.num ("-Infinity".toList), (c :: rest).drop 9)
        else none

/-- Parse the elements of a JSON array after the opening bracket (the input
starts at the first element), including the closing bracket. -/
def parseJArrItems : Nat → List Char → Option (List JVal × List Char)
  | 0, _ => none
  | fuel + 1, s =>
    match parseJVal fuel s with
    | none => none
    | some (v, r) =>
      match skipJWs r with
      | ',' :: r2 =>
        (match parseJArrItems fuel (skipJWs r2) with
         | some (items, r3) => some (v :: items, r3)
         | none => none)
      | ']' :: r2 => some ([v], r2)
      | _ => none

/-- Parse the members of a JSON object after the opening brace (the input
starts at the first key), including the closing brace. -/
def parseJObjItems : Nat → List Char → Option (List (List Char × JVal) × List Char)
  | 0, _ => none
  | fuel + 1, s =>
    match s with
    | '"' :: r0 =>
      (match parseJStrGo (r0.length + 1) r0 with
       | none => none
       | some (key, r1) =>
         match skipJWs r1 with
         | ':' :: r2 =>
           (match parseJVal fuel (skipJWs r2) with
            | none => none
            | some (v, r3) =>
              match skipJWs r3 with
              | ',' :: r4 =>
                (match parseJObjItems fuel (skipJWs r4) with
                 | some (fields, r5) => some ((key, v) :: fields, r5)
                 | none => none)
              | '}' :: r4 => some ([(key, v)], r4)
              | _ => none)
         | _ => none)
    | _ => none

end

/-- Model of `json.loads`: parse one JSON value with surrounding whitespace
allowed; any leftover input is an error ("Extra data"), and any failure is a
`JSONDecodeError` (`none`). -/
def jsonLoads (s : List Char) : Option JVal :=
  match parseJVal (s.length + 1) (skipJWs s) with
  | some (v, rest) => if skipJWs rest = [] then some v else none
  | none => none

-- ### The two extraction paths of `expand_keywords`

/-- The strict path: keep only string entries of the parsed array; lowercase
and trim each; keep those that are nonempty with length > 1.  No
deduplication happens on this path. -/
def strictNormalize (items : List JVal) : List (List Char) :=
  items.filterMap (fun v =>
    match v with
    | JVal.str s =>
      if normKw s ≠ [] ∧ 1 < (normKw s).length then some (normKw s) else none
    | _ => none)

/-- Model of `re.findall` with pattern: double quote, one or more non-quote
characters (captured), double quote — non-overlapping matches scanned left
to right.  The fuel argument is initialized to more than the input length,
which can never be exhausted (every step consumes at least one
character). -/
def findQuoted : Nat → List Char → List (List Char)
  | _, [] => []
  | 0, _ => []
  | fuel + 1, c :: rest =>
    if c = '"' then
      match rest.takeWhile (fun d => decide (d ≠ '"')) with
      | [] => findQuoted fuel rest
      | run =>
        match rest.drop run.length with
        | '"' :: tail => run :: findQuoted fuel tail
        | _ => findQuoted fuel rest
    else findQuoted fuel rest

/-- The fallback path: every quoted substring of the content, filtered by
`kw.strip()` nonempty of length > 1, mapped to `kw.lower().strip()`.  No
deduplication happens on this path either. -/
def fallbackExtract (content : List Char) : List (List Char) :=
  (findQuoted (content.length + 1) content).filterMap (fun kw =>
    if pyStrip kw ≠ [] ∧ 1 < (pyStrip kw).length then some (normKw kw) else none)

/-- The response-parsing portion of `expand_keywords`: preprocess, attempt a
strict structured parse (returning the normalized entries when the payload
is an array, `[]` when it is valid JSON of any other shape), and on
`JSONDecodeError` fall back to quoted-substring extraction. -/
def expand_keywords_parse (payload : List Char) : List (List Char) :=
  match jsonLoads (preprocess payload) with
  | some (JVal.arr items) => strictNormalize items
  | some _ => []
  | none => fallbackExtract (preprocess payload)

/-- `json.loads` with its exception made explicit: a parse failure raises
`JSONDecodeError`. -/
def jsonLoadsE (s : List Char) : Except String JVal :=
  match jsonLoads s with
  | some v => Except.ok v
  | none => Except.error "JSONDecodeError"

/-- Exception-explicit version of the parsing portion of `expand_keywords`:
the only exception any step can raise is the `JSONDecodeError` of the strict
parse, and the surrounding `except json.JSONDecodeError` handler catches
exactly it, so every branch returns normally. -/
def expand_keywords_parseE (payload : List Char) : Except String (List (List Char)) :=
  match jsonLoadsE (preprocess payload) with
  | Except.ok (JVal.arr items) => Except.ok (strictNormalize items)
  | Except.ok _ => Except.ok []
  | Except.error _ => Except.ok (fallbackExtract (preprocess payload))

/-- Guard used to state the non-array behaviour: the content parses as valid
JSON whose decoded value is not an array. -/
def jsonParsesNonArray (s : List Char) : Bool :=
  match jsonLoads s with
  | some v => !v.isArr
  | none => false

-- ### Claim theorems

/-- C1 counterexample: parsing the payload of the claim does not yield
["reverb", "echo"] — the strict structured-parse path keeps the later
duplicate instead of dropping it. -/
theorem C1_counterexample :
    expand_keywords_parse (("[\"Reverb\", \"REVERB \", \"echo\"]").toList) ≠
      (["reverb", "echo"]).map String.toList := by decide

/-- C1 (amended): neither parsing path deduplicates.  Entries are
normalized, filtered by length and kept in order with duplicates intact
(deduplication only happens later, in `deduplicate`): the strict path on
the claim's payload yields ["reverb", "reverb", "echo"], and the fallback
path likewise keeps equal-after-normalization duplicates. -/
theorem C1_parse_keeps_duplicates :
    expand_keywords_parse (("[\"Reverb\", \"REVERB \", \"echo\"]").toList) =
      (["reverb", "reverb", "echo"]).map String.toList ∧
    expand_keywords_parse (("note: \"aa\" and \"AA \" again").toList) =
      (["aa", "aa"]).map String.toList := ⟨by decide, by decide⟩

/-- C2 counterexample: the merged list can contain a string of trimmed
length 1 — the base keyword "I" of `arranger_keywords` survives the merge as
"i" instead of being dropped. -/
theorem C2_counterexample :
    ("i".toList ∈ merge arranger_keywords []) ∧ (pyStrip ("i".toList)).length ≤ 1 := by
  exact ⟨by decide, by decide⟩

/-- C2 (amended): the merged list contains no empty string (entries whose
normalized form is empty are dropped by `deduplicate`), but strings of
trimmed length 1 are retained — a base keyword violating the length-≥-2
rule is not dropped by the merge. -/
theorem C2_merge_no_empty :
    (∀ B E k, k ∈ merge B E → k ≠ []) ∧ ("i".toList ∈ merge arranger_keywords []) := by
  constructor
  · intro B E k hk
    exact mem_dedupGo_ne_nil (B ++ E) [] k hk
  · decide

theorem C2_merge_no_empty_witness : ("track".toList : List Char) ≠ [] :=
  C2_merge_no_empty.1 ([("track".toList)]) [] ("track".toList) (by decide)

/-- C3: merging preserves order with base keywords first — the merged list
is the deduplicated base list followed by the deduplicated expanded entries
whose normalized form is not already among the normalized base keywords,
and the concrete example of the claim holds. -/
theorem C3_merge_order :
    (∀ B E, merge B E = deduplicate B ++
        (deduplicate E).filter (fun k => decide (k ∉ B.map normKw))) ∧
    merge (["track", "fx"].map String.toList)
        (["track", "reverb", "fx", "echo"].map String.toList) =
      (["track", "fx", "reverb", "echo"]).map String.toList :=
  ⟨merge_eq_base_append_new, by decide⟩

/-- C4: the merged list contains no two entries that are equal under
lowercase-and-trim comparison. -/
theorem C4_merge_nodup (B E : List (List Char)) :
    (merge B E).Pairwise (fun a b => normKw a ≠ normKw b) := by
  have hnd : (merge B E).Nodup := dedupGo_nodup (B ++ E) []
  refine List.Pairwise.imp_of_mem ?_ hnd
  intro a b ha hb hne
  have h1 : normKw a = a := normKw_of_mem_dedupGo ha
  have h2 : normKw b = b := normKw_of_mem_dedupGo hb
  rw [h1, h2]
  exact hne

/-- C5: every base keyword whose normalized form has length ≥ 2 appears, in
normalized form, in the merged list. -/
theorem C5_merge_keeps_base (B E : List (List Char)) (b : List Char)
    (hb : b ∈ B) (hlen : 2 ≤ (normKw b).length) : normKw b ∈ merge B E := by
  have hne : normKw b ≠ [] := by
    intro h
    rw [h] at hlen
    simp at hlen
  rcases mem_dedupGo_of_mem (B ++ E) [] b (List.mem_append_left E hb) hne with h | h
  · simp at h
  · exact h

theorem C5_merge_keeps_base_witness :
    normKw ("Reverb ".toList) ∈ merge ([("Reverb ".toList)]) ([("echo".toList)]) :=
  C5_merge_keeps_base _ _ _ (by decide) (by decide)

/-- C6: when the strict structured parse fails, the parser returns exactly
the quoted-substring fallback extraction of the preprocessed content, and
the unstructured example of the claim yields ["delay", "verb"]. -/
theorem C6_fallback :
    (∀ p, jsonLoads (preprocess p) = none →
        expand_keywords_parse p = fallbackExtract (preprocess p)) ∧
    expand_keywords_parse (("Sure! Here: \"delay\" and \"verb\" are related.").toList) =
      (["delay", "verb"]).map String.toList := by
  constructor
  · intro p hp
    unfold expand_keywords_parse
    rw [hp]
  · decide

theorem C6_fallback_witness :
    expand_keywords_parse (("Sure! Here: \"delay\" and \"verb\" are related.").toList) =
      fallbackExtract (preprocess (("Sure! Here: \"delay\" and \"verb\" are related.").toList)) :=
  C6_fallback.1 _ (by rfl)

/-- C7: the parsing component is total and never raises — in the
exception-explicit model every payload produces a normal (`Except.ok`)
result, equal to the pure parse, and the empty payload yields `[]`. -/
theorem C7_never_raises :
    (∀ p, expand_keywords_parseE p = Except.ok (expand_keywords_parse p)) ∧
    expand_keywords_parse ("".toList) = [] := by
  constructor
  · intro p
    unfold expand_keywords_parseE jsonLoadsE expand_keywords_parse
    cases jsonLoads (preprocess p) with
    | none => rfl
    | some v => cases v <;> rfl
  · decide

/-- C8: merging a deduplicated list with itself returns the list
unchanged. -/
theorem C8_merge_idem (L : List (List Char)) (hL : deduplicate L = L) :
    merge L L = L := by
  rw [merge_eq_base_append_new, hL]
  have hfil : L.filter (fun k => decide (k ∉ L.map normKw)) = [] := by
    rw [List.filter_eq_nil_iff]
    intro k hk
    have hk' : k ∈ deduplicate L := by
      rw [hL]
      exact hk
    have hnorm : normKw k = k := normKw_of_mem_dedupGo hk'
    simp only [decide_eq_true_eq, not_not]
    exact List.mem_map.mpr ⟨k, hk, hnorm⟩
  rw [hfil, List.append_nil]

theorem C8_merge_idem_witness :
    merge (["track", "fx"].map String.toList) (["track", "fx"].map String.toList) =
      (["track", "fx"].map String.toList) :=
  C8_merge_idem _ (by decide)

/-- C9: when the preprocessed payload parses as valid JSON whose value is
not an array, the parser returns `[]` (the fallback extraction is never
consulted). -/
theorem C9_non_array (p : List Char) (h : jsonParsesNonArray (preprocess p) = true) :
    expand_keywords_parse p = [] := by
  unfold jsonParsesNonArray at h
  unfold expand_keywords_parse
  cases hj : jsonLoads (preprocess p) with
  | none =>
    rw [hj] at h
    simp at h
  | some v =>
    rw [hj] at h
    cases v with
    | arr items => simp [JVal.isArr] at h
    | null => rfl
    | boolean b => rfl
    | num s => rfl
    | str s => rfl
    | obj f => rfl

theorem C9_non_array_witness :
    jsonParsesNonArray (preprocess (("\x7b\"key\": \"delay\"\x7d").toList)) = true ∧
    expand_keywords_parse (("\x7b\"key\": \"delay\"\x7d").toList) = [] ∧
    fallbackExtract (preprocess (("\x7b\"key\": \"delay\"\x7d").toList)) ≠ [] :=
  ⟨by decide, C9_non_array _ (by decide), by decide⟩

/-- C10: `deduplicate` rewrites every retained entry to its normalized
form — each output element is normalization-fixed and is the normalized
form of an input element (all members of one equivalence class share that
normalized form), and an input whose first occurrence carries uppercase or
surrounding whitespace is rewritten, not preserved. -/
theorem C10_dedup_normalizes :
    (∀ l k, k ∈ deduplicate l → normKw k = k ∧ ∃ x ∈ l, normKw x = k) ∧
    deduplicate (([" Reverb ", "ECHO"]).map String.toList) =
      (["reverb", "echo"]).map String.toList := by
  constructor
  · intro l k hk
    exact ⟨normKw_of_mem_dedupGo hk, mem_dedupGo_exists l [] k hk⟩
  · decide

theorem C10_dedup_normalizes_witness :
    normKw ("reverb".toList) = "reverb".toList ∧
      ∃ x ∈ ([" Reverb ", "ECHO"]).map String.toList, normKw x = "reverb".toList :=
  C10_dedup_normalizes.1 _ _ (by decide)
